import Mathlib

/-!
Shallow embedding of the `canopy` tree-node module (`src/node.rs`,
`src/error.rs`).

The Rust code represents a tree element as `Rc<RefCell<Node<T>>>` (the
`NodeRef<T>` handle type): a reference-counted cell holding either a
`Leaf { prev, value }` or a `Parent { value, prev, next }`.  We embed the
heap of cells as an arena (`Store`): a list of `Node` values addressed by
position, so that Rust handle identity (`Rc::ptr_eq`) becomes equality of
addresses.  A live `NodeRef` always designates an existing allocation, so
a failed arena lookup can only arise from an address that no Rust handle
could hold; operations collapse that impossible case, together with a
`RefCell` double-borrow abort (a panic at runtime), into the `none`
result of their `Option`-typed return value.  A `some (r, s)` result is a
normal return: `r` is the Rust `Result` and `s` the post-state.

`std::mem::take` on the stored value is modelled with `default` from an
`Inhabited` instance, mirroring the `T: Default` bound in the source.
-/

namespace Canopy

/-- Address of a node allocation: stands for the identity of one
`Rc<RefCell<Node<T>>>` cell (`NodeRef<T>`). -/
abbrev Addr := Nat

/-- The error enum of `src/error.rs` (`NodeError`), variant for variant. -/
inductive NodeError where
  | DowngradeNotParent
  | RootDowngradeNotAllowed
  | IllegalDowngradeWithChildren (children : Nat)
  | ParentUpgradeNotAllowed
  | ExpectedALeafNode
  | ExpectedARootNode
  | NotAParent
  | AlreadyBorrowed
  | ParentNodeNotFound
  | ExpectedChildren
  deriving DecidableEq, Repr

/-- The `Node<T>` enum of `src/node.rs`: a `Leaf { prev, value }` or a
`Parent { value, prev, next }`, with handles replaced by addresses. -/
inductive Node (T : Type) where
  | Leaf (prev : Option Addr) (value : T)
  | Parent (value : T) (prev : Option Addr) (next : List Addr)
  deriving DecidableEq, Repr

/-- The arena of live allocations: cell `a` of `nodes` is the content of
the `RefCell` that address `a` designates. -/
structure Store (T : Type) where
  nodes : List (Node T)
  deriving DecidableEq, Repr

variable {T : Type}

namespace Store

/-- Number of allocations. -/
def size (s : Store T) : Nat := s.nodes.length

/-- Read the cell behind a handle (dereference + `borrow`). -/
def get (s : Store T) (a : Addr) : Option (Node T) := s.nodes[a]?

/-- Write the cell behind a handle (the write-back of a `borrow_mut`
guard when it is dropped). -/
def set (s : Store T) (a : Addr) (n : Node T) : Store T := ⟨s.nodes.set a n⟩

/-- `Node::parent(value)` (`src/node.rs`): allocate a fresh root
`Parent { value, prev: None, next: vec![] }` and return its handle. -/
def allocParent (s : Store T) (value : T) : Store T × Addr :=
  (⟨s.nodes ++ [Node.Parent value none []]⟩, s.nodes.length)

/-- `Node::leaf(value, prev)` (`src/node.rs`): allocate a fresh
`Leaf { value, prev }` and return its handle. -/
def allocLeaf (s : Store T) (value : T) (prev : Option Addr) : Store T × Addr :=
  (⟨s.nodes ++ [Node.Leaf prev value]⟩, s.nodes.length)

end Store

namespace Node

/-- `Node::is_root`: `Parent`-shaped with `prev.is_none()`. -/
def is_root : Node T → Bool
  | Node.Parent _ prev _ => prev.isNone
  | _ => false

/-- `Node::is_leaf`: `matches!(self, Self::Leaf { .. })`. -/
def is_leaf : Node T → Bool
  | Node.Leaf _ _ => true
  | _ => false

/-- `Node::expect_root`, exactly as written in the source: it tests
`self.is_leaf()` (not `is_root`) and returns `Ok` on a leaf. -/
def expect_root (n : Node T) : Except NodeError Unit :=
  if n.is_leaf then Except.ok () else Except.error NodeError.ExpectedARootNode

/-- `Node::expect_leaf`. -/
def expect_leaf (n : Node T) : Except NodeError Unit :=
  if n.is_leaf then Except.ok () else Except.error NodeError.ExpectedALeafNode

/-- `Node::has_children`: `Parent`-shaped with non-empty `next`. -/
def has_children : Node T → Bool
  | Node.Parent _ _ next => !next.isEmpty
  | Node.Leaf _ _ => false

/-- `Node::value`. -/
def value : Node T → T
  | Node.Parent v _ _ => v
  | Node.Leaf _ v => v

/-- `Node::children`: `next` for a `Parent`, `&[]` for a `Leaf`. -/
def children : Node T → List Addr
  | Node.Parent _ _ next => next
  | _ => []

/-- `Node::expect_children`. -/
def expect_children (n : Node T) : Except NodeError (List Addr) :=
  match n with
  | Node.Parent _ _ next =>
      if next.isEmpty then Except.error NodeError.ExpectedChildren
      else Except.ok next
  | _ => Except.error NodeError.ExpectedChildren

/-- `Node::prev`: clone of the optional parent handle, for either shape. -/
def prev : Node T → Option Addr
  | Node.Parent _ prev _ => prev
  | Node.Leaf prev _ => prev

/-- `Node::expect_prev`: `prev.clone().ok_or(ParentNodeNotFound)`. -/
def expect_prev (n : Node T) : Except NodeError Addr :=
  match n.prev with
  | some p => Except.ok p
  | none => Except.error NodeError.ParentNodeNotFound

/-- The `prev.take()` performed on the child inside `inner_pop`: clears
the parent back-reference of either shape, leaving the rest intact. -/
def clear_prev : Node T → Node T
  | Node.Leaf _ v => Node.Leaf none v
  | Node.Parent v _ next => Node.Parent v none next

/-- `Node::upgrade_inner` acting on the borrowed content: a `Leaf` is
rewritten in place to `Parent { value, prev, next: vec![node] }` (the
`mem::take`s move `value` and `prev` into the new variant unchanged);
anything else is left as is with `ParentUpgradeNotAllowed`. -/
def upgrade_inner : Node T → Addr → Node T × Except NodeError Unit
  | Node.Leaf prev value, node => (Node.Parent value prev [node], Except.ok ())
  | n, _ => (n, Except.error NodeError.ParentUpgradeNotAllowed)

/-- `Node::upgrade`: `parent.borrow_mut().upgrade_inner(node)`.  The
child handle is only cloned, never borrowed, so no abort is possible. -/
def upgrade (s : Store T) (parent node : Addr) :
    Option (Except NodeError Unit × Store T) :=
  match s.get parent with
  | none => none
  | some n =>
      let r := upgrade_inner n node
      some (r.2, s.set parent r.1)

/-- `Node::downgrade_inner` acting on the borrowed content.  Faithful to
the source order: the children count is checked first (no mutation on
that failure); then `mem::take(value)` runs, so on the `prev = None`
failure path the node keeps its `Parent` shape but its value has already
been replaced by `T::default()`. -/
def downgrade_inner [Inhabited T] : Node T → Node T × Except NodeError Unit
  | Node.Parent value prev next =>
      let children := next.length
      if children ≠ 0 then
        (Node.Parent value prev next,
         Except.error (NodeError.IllegalDowngradeWithChildren children))
      else
        match prev with
        | some parent => (Node.Leaf (some parent) value, Except.ok ())
        | none =>
            (Node.Parent default none next,
             Except.error NodeError.RootDowngradeNotAllowed)
  | n => (n, Except.error NodeError.DowngradeNotParent)

/-- `Node::downgrade`: `node.borrow_mut().downgrade_inner()`; the
(possibly mutated) content is written back when the guard drops. -/
def downgrade [Inhabited T] (s : Store T) (node : Addr) :
    Option (Except NodeError Unit × Store T) :=
  match s.get node with
  | none => none
  | some n =>
      let r := downgrade_inner n
      some (r.2, s.set node r.1)

/-- `Node::inner_insert`: allocate `Node::leaf(value, Some(parent))`
first, then attach it — a `Leaf` parent is upgraded (which appends the
single child), a `Parent` gets the child pushed onto `next`. -/
def inner_insert (s : Store T) (parent : Addr) (value : T) :
    Option (Except NodeError Addr × Store T) :=
  let alloc := s.allocLeaf value (some parent)
  let s1 := alloc.1
  let node := alloc.2
  match s.get parent with
  | none => none
  | some (Node.Leaf _ _) =>
      match upgrade s1 parent node with
      | none => none
      | some (Except.ok _, s2) => some (Except.ok node, s2)
      | some (Except.error e, s2) => some (Except.error e, s2)
  | some (Node.Parent v0 pr0 next) =>
      some (Except.ok node, s1.set parent (Node.Parent v0 pr0 (next ++ [node])))

/-- `Node::insert`: delegates to `inner_insert`. -/
def insert (s : Store T) (parent : Addr) (value : T) :
    Option (Except NodeError Addr × Store T) :=
  inner_insert s parent value

/-- `Node::pop` / `Node::inner_pop`.  The parent cell is mutably
borrowed for the whole call.  A `Leaf` parent fails with `NotAParent`; a
missing child returns `Ok(false)` with no state change.  When the child
is found by handle identity, it is removed by index, then
`child.borrow_mut()` clears its back-reference — if `child` is the very
cell already mutably borrowed as `parent`, this is a `RefCell`
double-borrow abort (`none`).  Finally, if no children remain and the
parent is not a root, `downgrade_inner` converts it to a `Leaf` (its
error, were one possible, would propagate through `?`). -/
def pop [Inhabited T] (s : Store T) (parent child : Addr) :
    Option (Except NodeError Bool × Store T) :=
  match s.get parent with
  | none => none
  | some (Node.Leaf _ _) => some (Except.error NodeError.NotAParent, s)
  | some (Node.Parent value prev next) =>
      match next.findIdx? (fun c => c == child) with
      | none => some (Except.ok false, s)
      | some index =>
          let next1 := next.eraseIdx index
          if child == parent then
            none
          else
            match s.get child with
            | none => none
            | some cn =>
                let s1 := s.set child cn.clear_prev
                if next1.isEmpty && prev.isSome then
                  let d := downgrade_inner (Node.Parent value prev next1)
                  some (d.2.map (fun _ => true), s1.set parent d.1)
                else
                  some (Except.ok true, s1.set parent (Node.Parent value prev next1))

end Node

/-- The `NodeIter<T>` state: the FIFO `queue: VecDeque<NodeRef<T>>`. -/
structure NodeIter where
  queue : List Addr
  deriving DecidableEq, Repr

/-- `NodeIter::new`: the queue is seeded with the start handle. -/
def NodeIter.new (node : Addr) : NodeIter := ⟨[node]⟩

/-- `Node::iter(node)`: constructs `NodeIter::new(node)`. -/
def Node.iter (node : Addr) : NodeIter := NodeIter.new node

/-- `<NodeIter as Iterator>::next`: pop the front handle; a `Parent`
extends the queue with its children (in stored order) and is yielded; a
`Leaf` yields nothing (its siblings stay queued but this step produces
`None`).  The store is read-only here (a shared borrow). -/
def NodeIter.next (s : Store T) (it : NodeIter) : Option Addr × NodeIter :=
  match it.queue with
  | [] => (none, ⟨[]⟩)
  | item :: rest =>
      match s.get item with
      | some (Node.Parent _ _ next) => (some item, ⟨rest ++ next⟩)
      | _ => (none, ⟨rest⟩)

/-- The item sequence a consumer of the iterator observes: repeatedly
call `next`, stopping at the first `None` (fuel bounds the unrolling —
the Rust iterator itself never terminates on a cyclic tree). -/
def NodeIter.toList (s : Store T) (it : NodeIter) : Nat → List Addr
  | 0 => []
  | fuel + 1 =>
      match NodeIter.next s it with
      | (some a, it') => a :: NodeIter.toList s it' fuel
      | (none, _) => []

/-- `children()` of the node a handle designates (empty for a dangling
address, which no live handle produces). -/
def childrenOf (s : Store T) (a : Addr) : List Addr :=
  match s.get a with
  | some n => n.children
  | none => []

/-- `parent()` resolution of the node a handle designates. -/
def prevOf (s : Store T) (a : Addr) : Option Addr :=
  match s.get a with
  | some n => n.prev
  | none => none

/-- Run a sequence of `Node::insert(parent, vᵢ)` calls on the same
parent, requiring every call to succeed. -/
def insertSeq (s : Store T) (p : Addr) : List T → Option (Store T)
  | [] => some s
  | v :: vs =>
      match Node.insert s p v with
      | some (Except.ok _, s') => insertSeq s' p vs
      | _ => none

/-- The values held by `parent.children()`, in stored order (a dangling
child address, which no live handle produces, reads as `none`). -/
def childValues (s : Store T) (p : Addr) : List (Option T) :=
  (childrenOf s p).map (fun a => (s.get a).map Node.value)

/-- The ownership/back-reference invariant of spec §3: every child
address held by some node is a live allocation; a node appears in at
most one parent's `children` (and at most once there); and a node that
is in some parent's `children` has its back-reference set to exactly
that parent. -/
def Inv (s : Store T) : Prop :=
  (∀ p np, s.get p = some np → ∀ a ∈ np.children, a < s.size) ∧
  (∀ p np q nq c, s.get p = some np → s.get q = some nq →
      c ∈ np.children → c ∈ nq.children → p = q) ∧
  (∀ p np, s.get p = some np → np.children.Nodup) ∧
  (∀ p np c, s.get p = some np → c ∈ np.children →
      ∃ nc, s.get c = some nc ∧ nc.prev = some p)

/-- States reachable from the empty heap by non-aborting runs of the
constructors (`Node::parent`, `Node::leaf`), `Node::insert`,
`Node::pop` and `Node::downgrade` (accessors and iteration do not
change the heap; direct `Node::upgrade` on an existing node is
deliberately not included — see the counterexample to the unrestricted
claim). -/
inductive Reach [Inhabited T] : Store T → Prop where
  | init : Reach ⟨[]⟩
  | alloc_parent (s : Store T) (v : T) :
      Reach s → Reach (Store.allocParent s v).1
  | alloc_leaf (s : Store T) (v : T) (pr : Option Addr) :
      Reach s → Reach (Store.allocLeaf s v pr).1
  | insert (s : Store T) (p : Addr) (v : T) (r : Except NodeError Addr)
      (s' : Store T) :
      Reach s → Node.insert s p v = some (r, s') → Reach s'
  | pop (s : Store T) (p c : Addr) (r : Except NodeError Bool)
      (s' : Store T) :
      Reach s → Node.pop s p c = some (r, s') → Reach s'
  | downgrade (s : Store T) (a : Addr) (r : Except NodeError Unit)
      (s' : Store T) :
      Reach s → Node.downgrade s a = some (r, s') → Reach s'

end Canopy

namespace Canopy

variable {T : Type}

/-! ### Arena lemmas -/

theorem Store.lt_size_of_get {s : Store T} {a : Addr} {n : Node T}
    (h : s.get a = some n) : a < s.size := by
  by_contra hlt
  rw [Store.get, List.getElem?_eq_none (Nat.le_of_not_lt hlt)] at h
  exact Option.noConfusion h

theorem Store.size_set (s : Store T) (a : Addr) (n : Node T) :
    (s.set a n).size = s.size := by
  simp [Store.set, Store.size]

theorem Store.get_set_self {s : Store T} {a : Addr} (n : Node T)
    (h : a < s.size) : (s.set a n).get a = some n := by
  simp [Store.set, Store.get, List.getElem?_set_self h]

theorem Store.get_set_ne {s : Store T} {a b : Addr} (n : Node T)
    (h : a ≠ b) : (s.set a n).get b = s.get b := by
  simp [Store.set, Store.get, List.getElem?_set_ne h]

theorem list_set_getElem_self {α : Type _} :
    ∀ (l : List α) (i : Nat) (x : α), l[i]? = some x → l.set i x = l
  | [], i, x, h => by simp at h
  | a :: l, 0, x, h => by
      simp only [List.getElem?_cons_zero, Option.some.injEq] at h
      simp [h]
  | a :: l, i + 1, x, h => by
      simp only [List.getElem?_cons_succ] at h
      simpa using list_set_getElem_self l i x h

theorem Store.set_get_eq {s : Store T} {a : Addr} {n : Node T}
    (h : s.get a = some n) : s.set a n = s := by
  rcases s with ⟨l⟩
  simp only [Store.set, Store.mk.injEq]
  exact list_set_getElem_self l a n h

theorem Store.get_append_lt {s : Store T} (x : Node T) {a : Addr}
    (h : a < s.size) : (⟨s.nodes ++ [x]⟩ : Store T).get a = s.get a := by
  simp [Store.get, List.getElem?_append_left h]

theorem Store.get_append_size (s : Store T) (x : Node T) :
    (⟨s.nodes ++ [x]⟩ : Store T).get s.size = some x := by
  simp [Store.get, Store.size, List.getElem?_concat_length]

theorem Store.get_append_cases {s : Store T} {n0 : Node T} {x : Addr}
    {nx : Node T} (h : (⟨s.nodes ++ [n0]⟩ : Store T).get x = some nx) :
    (x < s.size ∧ s.get x = some nx) ∨ (x = s.size ∧ nx = n0) := by
  by_cases hx : x < s.size
  · exact Or.inl ⟨hx, by rwa [Store.get_append_lt n0 hx] at h⟩
  · right
    have hlen : s.nodes.length ≤ x := Nat.le_of_not_lt hx
    simp only [Store.get] at h
    rw [List.getElem?_append_right hlen] at h
    rcases Nat.lt_or_ge (x - s.nodes.length) 1 with h1 | h1
    · have hx0 : x - s.nodes.length = 0 := Nat.lt_one_iff.mp h1
      rw [hx0] at h
      simp only [List.getElem?_cons_zero, Option.some.injEq] at h
      refine ⟨?_, h.symm⟩
      exact Nat.le_antisymm (Nat.le_of_sub_eq_zero hx0) hlen
    · rw [List.getElem?_eq_none (by simpa using h1)] at h
      exact Option.noConfusion h

/-! ### Claim C1: `expect_root` versus `is_root` -/

/-- C1: claimed — `expect_root` returns `Ok` exactly when `is_root`.
The code instead tests `is_leaf`: a root `Parent` node (the one shape
with `is_root = true`) gets `Err(ExpectedARootNode)`, and a `Leaf`
(never a root) gets `Ok`.  This evaluates the embedded code at both
shapes, exhibiting the divergence. -/
theorem claim1_expect_root_inverted :
    Node.is_root (Node.Parent (42 : Nat) none []) = true ∧
    Node.expect_root (Node.Parent (42 : Nat) none []) =
      Except.error NodeError.ExpectedARootNode ∧
    Node.is_root (Node.Leaf none (7 : Nat)) = false ∧
    Node.expect_root (Node.Leaf none (7 : Nat)) = Except.ok () :=
  ⟨rfl, rfl, rfl, rfl⟩

/-! ### Claim C2: level-order iteration with leaf early stop -/

/-- C2: `iter` seeds the FIFO queue with the start handle; a step that
pops a `Parent` handle appends its children to the back of the queue in
stored order and yields the handle; a step that pops a `Leaf` handle
yields nothing and the produced sequence ends immediately, even though
the rest of the queue is untouched. -/
theorem claim2_iter_level_order (s : Store T) (a : Addr) (rest : List Addr)
    (n : Node T) (h : s.get a = some n) :
    (Node.iter a).queue = [a] ∧
    (∀ v pr next, n = Node.Parent v pr next →
      NodeIter.next s ⟨a :: rest⟩ = (some a, ⟨rest ++ next⟩)) ∧
    (n.is_leaf = true →
      NodeIter.next s ⟨a :: rest⟩ = (none, ⟨rest⟩) ∧
      ∀ fuel, NodeIter.toList s ⟨a :: rest⟩ fuel = []) := by
  refine ⟨rfl, ?_, ?_⟩
  · rintro v pr next rfl
    simp [NodeIter.next, h]
  · intro hl
    cases n with
    | Parent v pr next => simp [Node.is_leaf] at hl
    | Leaf pr v =>
        refine ⟨by simp [NodeIter.next, h], ?_⟩
        intro fuel
        cases fuel with
        | zero => rfl
        | succ fuel => simp [NodeIter.toList, NodeIter.next, h]

/-- Witness for C2 at a concrete heap: the start handle is a `Leaf` and
the queue still holds another (parent) handle, yet no items at all are
produced. -/
theorem claim2_witness :
    NodeIter.toList
      (⟨[Node.Parent 1 none [], Node.Leaf none (2 : Nat)]⟩ : Store Nat)
      ⟨[1, 0]⟩ 5 = [] :=
  ((claim2_iter_level_order
      (⟨[Node.Parent 1 none [], Node.Leaf none (2 : Nat)]⟩ : Store Nat)
      1 [0] (Node.Leaf none 2) rfl).2.2 rfl).2 5

/-! ### Claim C3: `downgrade` preconditions, error order, effects -/

/-- C3: `downgrade` succeeds exactly on a `Parent` with no children and
a present back-reference, rewriting the cell to a `Leaf` preserving
value and parent; failure priority is `DowngradeNotParent` (shape),
then `IllegalDowngradeWithChildren(n)` with the child count and no
mutation, then `RootDowngradeNotAllowed`. -/
theorem claim3_downgrade_spec [Inhabited T] (s : Store T) (a : Addr)
    (n : Node T) (h : s.get a = some n) :
    ((∃ s', Node.downgrade s a = some (Except.ok (), s')) ↔
      ∃ v q, n = Node.Parent v (some q) []) ∧
    (∀ v q, n = Node.Parent v (some q) [] →
      Node.downgrade s a =
        some (Except.ok (), s.set a (Node.Leaf (some q) v))) ∧
    (n.is_leaf = true →
      Node.downgrade s a =
        some (Except.error NodeError.DowngradeNotParent, s)) ∧
    (∀ v pr next, n = Node.Parent v pr next → next ≠ [] →
      Node.downgrade s a =
        some (Except.error
          (NodeError.IllegalDowngradeWithChildren next.length), s)) ∧
    (∀ v, n = Node.Parent v none [] →
      Node.downgrade s a =
        some (Except.error NodeError.RootDowngradeNotAllowed,
          s.set a (Node.Parent default none []))) := by
  have hself : s.set a n = s := Store.set_get_eq h
  refine ⟨?_, ?_, ?_, ?_, ?_⟩
  · constructor
    · rintro ⟨s', hs'⟩
      cases n with
      | Leaf pr v =>
          simp [Node.downgrade, h, Node.downgrade_inner] at hs'
      | Parent v pr next =>
          cases next with
          | cons x xs =>
              simp [Node.downgrade, h, Node.downgrade_inner] at hs'
          | nil =>
              cases pr with
              | none => simp [Node.downgrade, h, Node.downgrade_inner] at hs'
              | some q => exact ⟨v, q, rfl⟩
    · rintro ⟨v, q, rfl⟩
      refine ⟨s.set a (Node.Leaf (some q) v), ?_⟩
      simp [Node.downgrade, h, Node.downgrade_inner]
  · rintro v q rfl
    simp [Node.downgrade, h, Node.downgrade_inner]
  · intro hl
    cases n with
    | Parent v pr next => simp [Node.is_leaf] at hl
    | Leaf pr v =>
        simpa [Node.downgrade, h, Node.downgrade_inner] using hself
  · rintro v pr next rfl hne
    have hlen : next.length ≠ 0 := by
      simpa [List.length_eq_zero] using hne
    simpa [Node.downgrade, h, Node.downgrade_inner, hlen] using hself
  · rintro v rfl
    simp [Node.downgrade, h, Node.downgrade_inner]

/-- Witness for C3 at a concrete heap: a non-root childless `Parent`
downgrades to a `Leaf` keeping its value and parent. -/
theorem claim3_witness :
    Node.downgrade
      (⟨[Node.Parent 9 none [], Node.Parent 5 (some 0) []]⟩ : Store Nat) 1 =
      some (Except.ok (),
        (⟨[Node.Parent 9 none [], Node.Parent 5 (some 0) []]⟩ : Store Nat).set 1
          (Node.Leaf (some 0) 5)) :=
  (claim3_downgrade_spec
    (⟨[Node.Parent 9 none [], Node.Parent 5 (some 0) []]⟩ : Store Nat) 1
    (Node.Parent 5 (some 0) []) rfl).2.1 5 0 rfl

/-! ### Claim C4: failed root downgrade loses the stored value -/

/-- C4: on a root `Parent` with no children, `downgrade` fails with
`RootDowngradeNotAllowed` and the node stays a root `Parent` — but
`mem::take` has already run, so the stored value is now `T::default()`
and the original value is lost whenever it differed from the default. -/
theorem claim4_root_downgrade_loses_value [Inhabited T] (s : Store T)
    (a : Addr) (v : T) (h : s.get a = some (Node.Parent v none [])) :
    Node.downgrade s a =
      some (Except.error NodeError.RootDowngradeNotAllowed,
        s.set a (Node.Parent default none [])) ∧
    (s.set a (Node.Parent default none [])).get a =
      some (Node.Parent default none []) ∧
    (v ≠ default →
      (s.set a (Node.Parent default none [])).get a ≠ s.get a) := by
  have ha : a < s.size := Store.lt_size_of_get h
  refine ⟨by simp [Node.downgrade, h, Node.downgrade_inner],
    Store.get_set_self _ ha, ?_⟩
  intro hv hc
  rw [Store.get_set_self _ ha, h] at hc
  injection hc with hn
  injection hn with h1 _ _
  exact hv h1.symm

/-- Witness for C4 at a concrete heap: the root's value 42 is replaced
by 0 (`Nat`'s default) by the failed downgrade. -/
theorem claim4_witness :
    Node.downgrade (⟨[Node.Parent 42 none []]⟩ : Store Nat) 0 =
      some (Except.error NodeError.RootDowngradeNotAllowed,
        (⟨[Node.Parent 42 none []]⟩ : Store Nat).set 0
          (Node.Parent 0 none [])) :=
  (claim4_root_downgrade_loses_value
    (⟨[Node.Parent 42 none []]⟩ : Store Nat) 0 42 rfl).1

/-! ### Claim C7: `upgrade` success/failure and no-op on failure -/

/-- C7: `upgrade(node, first_child)` succeeds exactly on a `Leaf`,
rewriting it to a `Parent` with the same value and back-reference and
`children = [first_child]`; on a `Parent` it fails with
`ParentUpgradeNotAllowed` and the heap is completely unchanged. -/
theorem claim7_upgrade_spec (s : Store T) (a c : Addr) (n : Node T)
    (h : s.get a = some n) :
    ((∃ s', Node.upgrade s a c = some (Except.ok (), s')) ↔
      n.is_leaf = true) ∧
    (∀ pr v, n = Node.Leaf pr v →
      Node.upgrade s a c =
        some (Except.ok (), s.set a (Node.Parent v pr [c]))) ∧
    (n.is_leaf = false →
      Node.upgrade s a c =
        some (Except.error NodeError.ParentUpgradeNotAllowed, s)) := by
  have hself : s.set a n = s := Store.set_get_eq h
  refine ⟨?_, ?_, ?_⟩
  · constructor
    · rintro ⟨s', hs'⟩
      cases n with
      | Leaf pr v => rfl
      | Parent v pr next =>
          simp [Node.upgrade, h, Node.upgrade_inner] at hs'
    · intro hl
      cases n with
      | Parent v pr next => simp [Node.is_leaf] at hl
      | Leaf pr v =>
          refine ⟨s.set a (Node.Parent v pr [c]), ?_⟩
          simp [Node.upgrade, h, Node.upgrade_inner]
  · rintro pr v rfl
    simp [Node.upgrade, h, Node.upgrade_inner]
  · intro hl
    cases n with
    | Leaf pr v => simp [Node.is_leaf] at hl
    | Parent v pr next =>
        simpa [Node.upgrade, h, Node.upgrade_inner] using hself

/-- Witness for C7 at a concrete heap: upgrading a `Leaf` keeps value
and back-reference and installs the single child. -/
theorem claim7_witness :
    Node.upgrade
      (⟨[Node.Parent 1 none [], Node.Leaf (some 0) 5,
         Node.Leaf none 8]⟩ : Store Nat) 1 2 =
      some (Except.ok (),
        (⟨[Node.Parent 1 none [], Node.Leaf (some 0) 5,
           Node.Leaf none 8]⟩ : Store Nat).set 1
          (Node.Parent 5 (some 0) [2])) :=
  (claim7_upgrade_spec
    (⟨[Node.Parent 1 none [], Node.Leaf (some 0) 5,
       Node.Leaf none 8]⟩ : Store Nat) 1 2 (Node.Leaf (some 0) 5)
    rfl).2.1 (some 0) 5 rfl

end Canopy

namespace Canopy

variable {T : Type}

/-! ### `findIdx?` / `eraseIdx` helper lemmas -/

theorem findIdx_beq_some_facts {l : List Addr} {c : Addr} {i : Nat}
    (h : l.findIdx? (fun d => d == c) = some i) :
    i < l.length ∧ l[i]? = some c ∧ ∀ j, j < i → l[j]? ≠ some c := by
  rw [List.findIdx?_eq_some_iff_getElem] at h
  obtain ⟨hi, hp, hmin⟩ := h
  refine ⟨hi, ?_, ?_⟩
  · have hc : l[i] = c := by simpa using hp
    simp [List.getElem?_eq_getElem hi, hc]
  · intro j hj hmem
    have hjl : j < l.length := Nat.lt_trans hj hi
    have hmj := hmin j hj
    rw [List.getElem?_eq_getElem hjl] at hmem
    have hc : l[j] = c := by injection hmem
    exact hmj (by simp [hc])

theorem findIdx_beq_none_not_mem {l : List Addr} {c : Addr}
    (h : l.findIdx? (fun d => d == c) = none) : c ∉ l := by
  rw [List.findIdx?_eq_none_iff] at h
  intro hm
  simpa using h c hm

theorem mem_findIdx_beq_some {l : List Addr} {c : Addr} (h : c ∈ l) :
    ∃ i, l.findIdx? (fun d => d == c) = some i := by
  cases hf : l.findIdx? (fun d => d == c) with
  | none => exact absurd h (findIdx_beq_none_not_mem hf)
  | some i => exact ⟨i, rfl⟩

theorem not_mem_findIdx_beq_none {l : List Addr} {c : Addr} (h : c ∉ l) :
    l.findIdx? (fun d => d == c) = none := by
  rw [List.findIdx?_eq_none_iff]
  intro x hx
  simp only [beq_eq_false_iff_ne, ne_eq]
  exact fun hxc => h (hxc ▸ hx)

theorem not_mem_eraseIdx_of_nodup {l : List Addr} {c : Addr} {i : Nat}
    (hnd : l.Nodup) (hi : l[i]? = some c) : c ∉ l.eraseIdx i := by
  intro hm
  rw [List.mem_eraseIdx_iff_getElem?] at hm
  obtain ⟨j, hne, hj⟩ := hm
  have hjl : j < l.length := (List.getElem?_eq_some_iff.mp hj).1
  exact hne (List.getElem?_inj hjl hnd (hj.trans hi.symm))

theorem mem_of_mem_eraseIdx {α : Type _} {l : List α} {i : Nat} {x : α}
    (h : x ∈ l.eraseIdx i) : x ∈ l := by
  rw [List.mem_eraseIdx_iff_getElem?] at h
  obtain ⟨j, _, hj⟩ := h
  exact List.getElem?_mem hj

theorem eraseIdx_first_decomp {l : List Addr} {c : Addr} {i : Nat}
    (h : l.findIdx? (fun d => d == c) = some i) :
    l = l.take i ++ c :: l.drop (i + 1) ∧ c ∉ l.take i ∧
      l.eraseIdx i = l.take i ++ l.drop (i + 1) := by
  obtain ⟨hi, hgi, hmin⟩ := findIdx_beq_some_facts h
  have hgc : l[i] = c := by
    rw [List.getElem?_eq_getElem hi] at hgi
    injection hgi
  refine ⟨?_, ?_, List.eraseIdx_eq_take_drop_succ l i⟩
  · conv_lhs => rw [← List.take_append_drop i l]
    rw [List.drop_eq_getElem_cons hi, hgc]
  · intro hm
    rw [List.mem_iff_getElem?] at hm
    obtain ⟨j, hj⟩ := hm
    have h1 := (List.getElem?_eq_some_iff.mp hj).1
    rw [List.length_take] at h1
    have hjlt : j < i := Nat.lt_of_lt_of_le h1 (Nat.min_le_left _ _)
    rw [List.getElem?_take_of_lt hjlt] at hj
    exact hmin j hjlt hj

/-! ### Characterizations of `Node.pop` -/

/-- Forward evaluation of `pop` in the child-found, distinct-handles
case: the first matching entry is removed, the child's back-reference
is cleared, and the parent is auto-downgraded exactly when it has no
children left and is not a root. -/
theorem pop_found [Inhabited T] {s : Store T} {p c : Addr} {v : T}
    {pr : Option Addr} {next : List Addr} {i : Nat} {cn : Node T}
    (hp : s.get p = some (Node.Parent v pr next))
    (hf : next.findIdx? (fun d => d == c) = some i)
    (hcp : c ≠ p) (hc : s.get c = some cn) :
    ∃ pn, Node.pop s p c =
        some (Except.ok true, (s.set c cn.clear_prev).set p pn) ∧
      pn.children = next.eraseIdx i ∧ pn.prev = pr ∧ pn.value = v ∧
      (∀ q, next.eraseIdx i = [] → pr = some q →
        pn = Node.Leaf (some q) v) ∧
      ((next.eraseIdx i ≠ [] ∨ pr = none) →
        pn = Node.Parent v pr (next.eraseIdx i)) := by
  have hbeq : (c == p) = false := by simpa using hcp
  cases pr with
  | none =>
      refine ⟨Node.Parent v none (next.eraseIdx i), ?_, rfl, rfl, rfl,
        ?_, fun _ => rfl⟩
      · simp [Node.pop, hp, hf, hbeq, hc]
      · intro q _ hq
        exact absurd hq (by simp)
  | some q0 =>
      cases he : next.eraseIdx i with
      | nil =>
          refine ⟨Node.Leaf (some q0) v, ?_, by simp [Node.children],
            rfl, rfl, ?_, ?_⟩
          · simp [Node.pop, hp, hf, hbeq, hc, he, Node.downgrade_inner,
              Except.map]
          · intro q _ hq
            injection hq with hq
            rw [hq]
          · rintro (hne | hnone)
            · exact absurd rfl hne
            · exact absurd hnone (by simp)
      | cons x xs =>
          refine ⟨Node.Parent v (some q0) (x :: xs), ?_, rfl, rfl, rfl,
            ?_, fun _ => rfl⟩
          · simp [Node.pop, hp, hf, hbeq, hc, he]
          · intro q habs _
            exact absurd habs (by simp)

/-- Complete case analysis of a returning (non-aborting) `pop` call. -/
theorem pop_cases [Inhabited T] {s : Store T} {p c : Addr}
    {r : Except NodeError Bool} {s' : Store T}
    (h : Node.pop s p c = some (r, s')) :
    (∃ pr v, s.get p = some (Node.Leaf pr v) ∧
      r = Except.error NodeError.NotAParent ∧ s' = s) ∨
    (∃ v pr next, s.get p = some (Node.Parent v pr next) ∧
      next.findIdx? (fun d => d == c) = none ∧
      r = Except.ok false ∧ s' = s) ∨
    (∃ v pr next i cn pn, s.get p = some (Node.Parent v pr next) ∧
      next.findIdx? (fun d => d == c) = some i ∧ c ≠ p ∧
      s.get c = some cn ∧ r = Except.ok true ∧
      s' = (s.set c cn.clear_prev).set p pn ∧
      pn.children = next.eraseIdx i ∧ pn.prev = pr ∧ pn.value = v ∧
      (∀ q, next.eraseIdx i = [] → pr = some q →
        pn = Node.Leaf (some q) v) ∧
      ((next.eraseIdx i ≠ [] ∨ pr = none) →
        pn = Node.Parent v pr (next.eraseIdx i))) := by
  cases hp : s.get p with
  | none => simp [Node.pop, hp] at h
  | some np =>
      cases np with
      | Leaf pr v =>
          simp only [Node.pop, hp, Option.some.injEq, Prod.mk.injEq] at h
          exact Or.inl ⟨pr, v, rfl, h.1.symm, h.2.symm⟩
      | Parent v pr next =>
          cases hf : next.findIdx? (fun d => d == c) with
          | none =>
              simp only [Node.pop, hp, hf, Option.some.injEq,
                Prod.mk.injEq] at h
              exact Or.inr (Or.inl ⟨v, pr, next, rfl, hf, h.1.symm, h.2.symm⟩)
          | some i =>
              cases hcpb : (c == p) with
              | true => simp [Node.pop, hp, hf, hcpb] at h
              | false =>
                  have hcp : c ≠ p := by simpa using hcpb
                  cases hc : s.get c with
                  | none => simp [Node.pop, hp, hf, hcpb, hc] at h
                  | some cn =>
                      obtain ⟨pn, heq, hch, hprev, hv, h1, h2⟩ :=
                        pop_found hp hf hcp hc
                      rw [heq] at h
                      simp only [Option.some.injEq, Prod.mk.injEq] at h
                      refine Or.inr (Or.inr
                        ⟨v, pr, next, i, cn, pn, rfl, hf, hcp, rfl,
                          h.1.symm, h.2.symm, hch, hprev, hv, h1, h2⟩)

theorem clear_prev_prev (n : Node T) : (Node.clear_prev n).prev = none := by
  cases n <;> rfl

theorem clear_prev_children (n : Node T) :
    (Node.clear_prev n).children = n.children := by
  cases n <;> rfl

/-! ### Claim C5: effects of a successful `pop` -/

/-- C5: after `pop` returns `Ok(true)`, the popped child's
back-reference is cleared (`parent()` resolves to `None`); if the
popped child was the last child, a non-root parent is left
`Leaf`-shaped while a root parent stays `Parent`-shaped with zero
children, in both cases keeping its value. -/
theorem claim5_pop_detach [Inhabited T] (s s' : Store T) (p c : Addr)
    (h : Node.pop s p c = some (Except.ok true, s')) :
    prevOf s' c = none ∧
    (∀ v pr, s.get p = some (Node.Parent v pr [c]) →
      (∀ q, pr = some q →
        s'.get p = some (Node.Leaf (some q) v) ∧
        (Node.Leaf (some q) v : Node T).is_leaf = true) ∧
      (pr = none → s'.get p = some (Node.Parent v none []))) := by
  rcases pop_cases h with
    ⟨pr, v, hp, hr, _⟩ | ⟨v, pr, next, hp, hf, hr, _⟩ |
    ⟨v, pr, next, i, cn, pn, hp, hf, hcp, hc, _, hs', hch, hprev, hv,
      h1, h2⟩
  · exact absurd hr (by simp)
  · exact absurd hr (by simp)
  · have hpsz : p < s.size := Store.lt_size_of_get hp
    have hcsz : c < s.size := Store.lt_size_of_get hc
    have hgetc : s'.get c = some cn.clear_prev := by
      rw [hs', Store.get_set_ne _ (Ne.symm hcp), Store.get_set_self _ hcsz]
    have hgetp : s'.get p = some pn := by
      rw [hs', Store.get_set_self _ (by rwa [Store.size_set])]
    refine ⟨by simp [prevOf, hgetc, clear_prev_prev], ?_⟩
    rintro v' pr' hp'
    rw [hp] at hp'
    injection hp' with hp'
    injection hp' with hv' hpr' hnext'
    subst hv'; subst hpr'
    have hi0 : next.eraseIdx i = [] := by
      obtain ⟨hilen, _, _⟩ := findIdx_beq_some_facts hf
      rw [hnext'] at hilen ⊢
      have hi1 : i < 1 := by simpa using hilen
      have hiz : i = 0 := Nat.lt_one_iff.mp hi1
      subst hiz
      rfl
    constructor
    · intro q hq
      rw [h1 q hi0 hq] at hgetp
      exact ⟨hgetp, rfl⟩
    · intro hq
      rw [h2 (Or.inr hq), hq, hi0] at hgetp
      exact hgetp

/-- Witness for C5 at a concrete heap: popping the only child of a
non-root parent clears the child's back-reference (and, via the other
conjunct of `claim5_pop_detach`, downgrades the parent). -/
theorem claim5_witness :
    prevOf (⟨[Node.Leaf (some 2) 1, Node.Leaf none 5,
      Node.Parent 9 none [0]]⟩ : Store Nat) 1 = none :=
  (claim5_pop_detach
    (⟨[Node.Parent 1 (some 2) [1], Node.Leaf (some 0) 5,
       Node.Parent 9 none [0]]⟩ : Store Nat)
    (⟨[Node.Leaf (some 2) 1, Node.Leaf none 5,
       Node.Parent 9 none [0]]⟩ : Store Nat)
    0 1 (by rfl)).1

/-! ### Claim C6: `pop` result versus membership by identity -/

/-- C6 as stated is false on the code: with distinct handles it behaves
as claimed, but when the child handle *is* the parent handle (a
self-referential parent, reachable via `upgrade(n, n)`), `pop` hits a
`RefCell` double mutable borrow and aborts instead of returning
`Ok(true)`: here the child is present in the parent's children by
identity, yet no `Result` value is produced at all. -/
theorem claim6_counterexample :
    Node.upgrade (⟨[Node.Leaf none 0]⟩ : Store Nat) 0 0 =
      some (Except.ok (), ⟨[Node.Parent 0 none [0]]⟩) ∧
    0 ∈ childrenOf (⟨[Node.Parent (0 : Nat) none [0]]⟩ : Store Nat) 0 ∧
    Node.pop (⟨[Node.Parent (0 : Nat) none [0]]⟩ : Store Nat) 0 0 = none :=
  ⟨rfl, by decide, rfl⟩

/-- C6 (amended): provided the child handle is distinct from the parent
handle, `pop` fails with `NotAParent` on a `Leaf` parent; returns
`Ok(false)` with the heap completely unchanged when the child is absent
from the children by identity (even if another child holds an equal
value — membership is address identity, values never enter the search);
and returns `Ok(true)` removing exactly the first identical entry,
preserving the relative order of the remaining children. -/
theorem claim6_pop_membership [Inhabited T] (s : Store T) (p c : Addr)
    (n : Node T) (h : s.get p = some n) (hcp : c ≠ p)
    (hclive : ∃ nc, s.get c = some nc) :
    (n.is_leaf = true →
      Node.pop s p c = some (Except.error NodeError.NotAParent, s)) ∧
    (∀ v pr next, n = Node.Parent v pr next → c ∉ next →
      Node.pop s p c = some (Except.ok false, s)) ∧
    (∀ v pr next, n = Node.Parent v pr next → c ∈ next →
      ∃ l1 l2 s', next = l1 ++ c :: l2 ∧ c ∉ l1 ∧
        Node.pop s p c = some (Except.ok true, s') ∧
        childrenOf s' p = l1 ++ l2) := by
  obtain ⟨cn, hc⟩ := hclive
  refine ⟨?_, ?_, ?_⟩
  · intro hl
    cases n with
    | Parent v pr next => simp [Node.is_leaf] at hl
    | Leaf pr v => simp [Node.pop, h]
  · rintro v pr next rfl hnm
    have hf := not_mem_findIdx_beq_none hnm
    simp [Node.pop, h, hf]
  · rintro v pr next rfl hm
    obtain ⟨i, hf⟩ := mem_findIdx_beq_some hm
    obtain ⟨hdec, hnotl1, herase⟩ := eraseIdx_first_decomp hf
    obtain ⟨pn, heq, hch, hprev, hv, h1, h2⟩ := pop_found h hf hcp hc
    refine ⟨next.take i, next.drop (i + 1), _, hdec, hnotl1, heq, ?_⟩
    have hpsz : p < s.size := Store.lt_size_of_get h
    have hget : ((s.set c cn.clear_prev).set p pn).get p = some pn :=
      Store.get_set_self _ (by rwa [Store.size_set])
    simp [childrenOf, hget, hch, herase]

/-- Witness for C6 at a concrete heap: the probe handle (address 3)
holds the same value 7 as an actual child (address 2), but is absent by
identity, so `pop` returns `Ok(false)` and the heap is unchanged. -/
theorem claim6_witness :
    Node.pop (⟨[Node.Parent 1 none [1, 2], Node.Leaf (some 0) 7,
      Node.Leaf (some 0) 7, Node.Leaf none 7]⟩ : Store Nat) 0 3 =
      some (Except.ok false,
        ⟨[Node.Parent 1 none [1, 2], Node.Leaf (some 0) 7,
          Node.Leaf (some 0) 7, Node.Leaf none 7]⟩) :=
  ((claim6_pop_membership
      (⟨[Node.Parent 1 none [1, 2], Node.Leaf (some 0) 7,
        Node.Leaf (some 0) 7, Node.Leaf none 7]⟩ : Store Nat) 0 3
      (Node.Parent 1 none [1, 2]) rfl (by decide)
      ⟨Node.Leaf none 7, rfl⟩).2.1) 1 none [1, 2] rfl (by decide)

/-! ### Claim C9: no panic / typed `AlreadyBorrowed` errors -/

/-- C9 is refuted by the code: `upgrade(n, n)` makes a node its own
child, and then `pop(n, n)` — parent and child handles referring to the
identical node — calls `child.borrow_mut()` while the same cell is
held mutably borrowed as the parent, a `RefCell` double-borrow abort
(a panic), modelled by the `none` outcome; no `AlreadyBorrowed` error
value is ever produced (the code never constructs that variant). -/
theorem claim9_pop_self_borrow_abort :
    Store.allocLeaf (⟨[]⟩ : Store Nat) 0 none = (⟨[Node.Leaf none 0]⟩, 0) ∧
    Node.upgrade (⟨[Node.Leaf none 0]⟩ : Store Nat) 0 0 =
      some (Except.ok (), ⟨[Node.Parent 0 none [0]]⟩) ∧
    Node.pop (⟨[Node.Parent (0 : Nat) none [0]]⟩ : Store Nat) 0 0 = none :=
  ⟨rfl, rfl, rfl⟩

end Canopy

namespace Canopy

variable {T : Type}

/-! ### Characterization of one `Node.insert` call -/

theorem Store.size_append (s : Store T) (x : Node T) :
    (⟨s.nodes ++ [x]⟩ : Store T).size = s.size + 1 := by
  simp [Store.size]

/-- One successful `insert` allocates the new leaf at address `s.size`
with its back-reference set to the parent, appends that address at the
end of the parent's children (upgrading a `Leaf` parent on the way),
preserves the parent's value and back-reference, and touches no other
cell. -/
theorem insert_get (s : Store T) (p : Addr) (v : T) (n : Node T)
    (h : s.get p = some n) :
    ∃ s' n', Node.insert s p v = some (Except.ok s.size, s') ∧
      s'.size = s.size + 1 ∧
      s'.get p = some n' ∧
      n'.value = n.value ∧ n'.prev = n.prev ∧
      n'.children = n.children ++ [s.size] ∧
      s'.get s.size = some (Node.Leaf (some p) v) ∧
      (∀ b, b ≠ p → b < s.size → s'.get b = s.get b) := by
  have hpsz : p < s.size := Store.lt_size_of_get h
  have hpne : p ≠ s.size := Nat.ne_of_lt hpsz
  have hpsz1 : p < (⟨s.nodes ++ [Node.Leaf (some p) v]⟩ : Store T).size := by
    rw [Store.size_append]; exact Nat.lt_succ_of_lt hpsz
  cases n with
  | Leaf pr v0 =>
      refine ⟨(⟨s.nodes ++ [Node.Leaf (some p) v]⟩ : Store T).set p
          (Node.Parent v0 pr [s.size]), Node.Parent v0 pr [s.size],
        ?_, ?_, ?_, rfl, rfl, rfl, ?_, ?_⟩
      · have hup : (⟨s.nodes ++ [Node.Leaf (some p) v]⟩ : Store T).get p
            = some (Node.Leaf pr v0) := by
          rw [Store.get_append_lt _ hpsz]; exact h
        simp [Node.insert, Node.inner_insert, Store.allocLeaf, h,
          Node.upgrade, hup, Node.upgrade_inner, Store.size]
      · rw [Store.size_set, Store.size_append]
      · exact Store.get_set_self _ hpsz1
      · rw [Store.get_set_ne _ hpne, Store.get_append_size]
      · intro b hbp hbs
        rw [Store.get_set_ne _ (Ne.symm hbp), Store.get_append_lt _ hbs]
  | Parent v0 pr next =>
      refine ⟨(⟨s.nodes ++ [Node.Leaf (some p) v]⟩ : Store T).set p
          (Node.Parent v0 pr (next ++ [s.size])),
        Node.Parent v0 pr (next ++ [s.size]),
        ?_, ?_, ?_, rfl, rfl, rfl, ?_, ?_⟩
      · simp [Node.insert, Node.inner_insert, Store.allocLeaf, h,
          Store.size]
      · rw [Store.size_set, Store.size_append]
      · exact Store.get_set_self _ hpsz1
      · rw [Store.get_set_ne _ hpne, Store.get_append_size]
      · intro b hbp hbs
        rw [Store.get_set_ne _ (Ne.symm hbp), Store.get_append_lt _ hbs]

/-! ### Claim C10: insertion order is append order -/

/-- C10: running any sequence of successful `insert(parent, v₁ … vₙ)`
calls on the same parent appends the values at the end of the
children, in exactly that order, reordering nothing; in particular a
parent starting with no children ends up listing exactly
`v₁, …, vₙ`. -/
theorem claim10_insert_append_order (s : Store T) (p : Addr) (n : Node T)
    (h : s.get p = some n) (hlive : ∀ a ∈ n.children, a < s.size)
    (vs : List T) (s' : Store T) (hseq : insertSeq s p vs = some s') :
    childValues s' p = childValues s p ++ vs.map some ∧
    (n.children = [] → childValues s' p = vs.map some) := by
  have main : ∀ (vs : List T) (s : Store T) (n : Node T),
      s.get p = some n → (∀ a ∈ n.children, a < s.size) →
      ∀ s', insertSeq s p vs = some s' →
      childValues s' p = childValues s p ++ vs.map some := by
    intro vs
    induction vs with
    | nil =>
        intro s n h hlive s' hseq
        simp only [insertSeq, Option.some.injEq] at hseq
        subst hseq
        simp
    | cons v vs ih =>
        intro s n h hlive s' hseq
        obtain ⟨s1, n1, heq, hsize, hget, hval, hprev, hch, hnew, hframe⟩ :=
          insert_get s p v n h
        rw [insertSeq, heq] at hseq
        have hlive1 : ∀ a ∈ n1.children, a < s1.size := by
          intro a ha
          rw [hch] at ha
          rcases List.mem_append.mp ha with h1 | h1
          · rw [hsize]
            exact Nat.lt_succ_of_lt (hlive a h1)
          · simp only [List.mem_singleton] at h1
            subst h1
            rw [hsize]
            exact Nat.lt_succ_self _
        have hstep : childValues s1 p = childValues s p ++ [some v] := by
          have hco1 : childrenOf s1 p = n.children ++ [s.size] := by
            simp [childrenOf, hget, hch]
          have hco : childrenOf s p = n.children := by
            simp [childrenOf, h]
          rw [childValues, childValues, hco1, hco, List.map_append]
          congr 1
          · apply List.map_congr_left
            intro a ha
            by_cases hap : a = p
            · subst hap
              rw [hget, h]
              simp only [Option.map_some']
              rw [hval]
            · rw [hframe a hap (hlive a ha)]
          · simp [hnew, Node.value]
        rw [ih s1 n1 hget hlive1 s' hseq, hstep]
        simp
  refine ⟨main vs s n h hlive s' hseq, ?_⟩
  intro hnil
  rw [main vs s n h hlive s' hseq]
  simp [childValues, childrenOf, h, hnil]

/-- Witness for C10 at a concrete heap: inserting 2 then 3 under a
fresh root lists values `[2, 3]` in that order. -/
theorem claim10_witness :
    childValues (⟨[Node.Parent 1 none [1, 2], Node.Leaf (some 0) 2,
      Node.Leaf (some 0) 3]⟩ : Store Nat) 0 = [some 2, some 3] := by
  simpa using (claim10_insert_append_order
    (⟨[Node.Parent 1 none []]⟩ : Store Nat) 0 (Node.Parent 1 none [])
    rfl (by simp [Node.children]) [2, 3]
    (⟨[Node.Parent 1 none [1, 2], Node.Leaf (some 0) 2,
      Node.Leaf (some 0) 3]⟩ : Store Nat) (by rfl)).2 rfl

end Canopy

namespace Canopy

variable {T : Type}

/-! ### Claim C8: exclusive membership and back-reference consistency -/

/-- C8 as stated is false on the code: `upgrade` is a public operation
and attaches an existing node as a child without setting that node's
back-reference and without detaching it from any previous parent.
Before the final heap here, three leaves are allocated (addresses 0, 1
and 2); after `upgrade(0, 1)` and `upgrade(2, 1)`, node 1 sits in the
children of both node 0 and node 2 (two distinct parents at once), and
its back-reference is still `None` despite both attachments. -/
theorem claim8_counterexample :
    Store.allocLeaf (⟨[]⟩ : Store Nat) 5 none = (⟨[Node.Leaf none 5]⟩, 0) ∧
    Store.allocLeaf (⟨[Node.Leaf none 5]⟩ : Store Nat) 7 none =
      (⟨[Node.Leaf none 5, Node.Leaf none 7]⟩, 1) ∧
    Store.allocLeaf (⟨[Node.Leaf none 5, Node.Leaf none 7]⟩ : Store Nat)
      9 none =
      (⟨[Node.Leaf none 5, Node.Leaf none 7, Node.Leaf none 9]⟩, 2) ∧
    Node.upgrade
      (⟨[Node.Leaf none 5, Node.Leaf none 7,
         Node.Leaf none 9]⟩ : Store Nat) 0 1 =
      some (Except.ok (),
        ⟨[Node.Parent 5 none [1], Node.Leaf none 7, Node.Leaf none 9]⟩) ∧
    Node.upgrade
      (⟨[Node.Parent 5 none [1], Node.Leaf none 7,
         Node.Leaf none 9]⟩ : Store Nat) 2 1 =
      some (Except.ok (),
        ⟨[Node.Parent 5 none [1], Node.Leaf none 7,
          Node.Parent 9 none [1]]⟩) ∧
    1 ∈ childrenOf
      (⟨[Node.Parent 5 none [1], Node.Leaf none 7,
         Node.Parent 9 none [1]]⟩ : Store Nat) 0 ∧
    1 ∈ childrenOf
      (⟨[Node.Parent 5 none [1], Node.Leaf none 7,
         Node.Parent 9 none [1]]⟩ : Store Nat) 2 ∧
    (0 : Addr) ≠ 2 ∧
    prevOf
      (⟨[Node.Parent 5 none [1], Node.Leaf none 7,
         Node.Parent 9 none [1]]⟩ : Store Nat) 1 = none :=
  ⟨rfl, rfl, rfl, rfl, rfl, by decide, by decide, by decide, rfl⟩

theorem inv_empty : Inv (⟨[]⟩ : Store T) := by
  have hnone : ∀ a : Addr, (⟨[]⟩ : Store T).get a = none := by
    intro a
    simp [Store.get]
  refine ⟨?_, ?_, ?_, ?_⟩
  · intro p np hp
    rw [hnone p] at hp
    exact Option.noConfusion hp
  · intro p np q nq c hp
    rw [hnone p] at hp
    exact Option.noConfusion hp
  · intro p np hp
    rw [hnone p] at hp
    exact Option.noConfusion hp
  · intro p np c hp
    rw [hnone p] at hp
    exact Option.noConfusion hp

theorem inv_alloc (s : Store T) (n0 : Node T) (h0 : n0.children = [])
    (hI : Inv s) : Inv (⟨s.nodes ++ [n0]⟩ : Store T) := by
  obtain ⟨hWF, hUniq, hNodup, hBack⟩ := hI
  refine ⟨?_, ?_, ?_, ?_⟩
  · intro p np hp a ha
    rcases Store.get_append_cases hp with ⟨hlt, hg⟩ | ⟨hpe, hne⟩
    · have := hWF p np hg a ha
      rw [Store.size_append]
      exact Nat.lt_succ_of_lt this
    · subst hne
      rw [h0] at ha
      simp at ha
  · intro p np q nq c hp hq hcp hcq
    rcases Store.get_append_cases hp with ⟨hplt, hpg⟩ | ⟨hpe, hne⟩
    · rcases Store.get_append_cases hq with ⟨hqlt, hqg⟩ | ⟨hqe, hne⟩
      · exact hUniq p np q nq c hpg hqg hcp hcq
      · subst hne
        rw [h0] at hcq
        simp at hcq
    · subst hne
      rw [h0] at hcp
      simp at hcp
  · intro p np hp
    rcases Store.get_append_cases hp with ⟨hplt, hpg⟩ | ⟨hpe, hne⟩
    · exact hNodup p np hpg
    · subst hne
      rw [h0]
      exact List.nodup_nil
  · intro p np c hp hcp
    rcases Store.get_append_cases hp with ⟨hplt, hpg⟩ | ⟨hpe, hne⟩
    · obtain ⟨nc, hgc, hprevc⟩ := hBack p np c hpg hcp
      have hcs : c < s.size := hWF p np hpg c hcp
      exact ⟨nc, by rw [Store.get_append_lt _ hcs]; exact hgc, hprevc⟩
    · subst hne
      rw [h0] at hcp
      simp at hcp

/-- Replacing a cell's content with a node that has the same children
and the same back-reference (all `downgrade` outcomes, in particular)
preserves the invariant. -/
theorem inv_set_same_shape (s : Store T) (a : Addr) {na na' : Node T}
    (hna : s.get a = some na) (hch : na'.children = na.children)
    (hprev : na'.prev = na.prev) (hI : Inv s) : Inv (s.set a na') := by
  obtain ⟨hWF, hUniq, hNodup, hBack⟩ := hI
  have hasz : a < s.size := Store.lt_size_of_get hna
  have hchar : ∀ x nx, (s.set a na').get x = some nx →
      (x = a ∧ nx = na') ∨ (x ≠ a ∧ s.get x = some nx) := by
    intro x nx hx
    by_cases hxa : x = a
    · subst hxa
      rw [Store.get_set_self _ hasz] at hx
      injection hx with hx
      exact Or.inl ⟨rfl, hx.symm⟩
    · right
      refine ⟨hxa, ?_⟩
      rwa [Store.get_set_ne _ (fun hax => hxa hax.symm)] at hx
  have hmem : ∀ x nx c, (s.set a na').get x = some nx → c ∈ nx.children →
      ∃ mx, s.get x = some mx ∧ c ∈ mx.children := by
    intro x nx c hx hc
    rcases hchar x nx hx with ⟨rfl, rfl⟩ | ⟨hxa, hg⟩
    · exact ⟨na, hna, hch ▸ hc⟩
    · exact ⟨nx, hg, hc⟩
  refine ⟨?_, ?_, ?_, ?_⟩
  · intro p np hp b hb
    obtain ⟨mx, hg, hbm⟩ := hmem p np b hp hb
    rw [Store.size_set]
    exact hWF p mx hg b hbm
  · intro p np q nq c hp hq hcp hcq
    obtain ⟨mp, hgp, hmp⟩ := hmem p np c hp hcp
    obtain ⟨mq, hgq, hmq⟩ := hmem q nq c hq hcq
    exact hUniq p mp q mq c hgp hgq hmp hmq
  · intro p np hp
    rcases hchar p np hp with ⟨rfl, rfl⟩ | ⟨hpa, hg⟩
    · rw [hch]
      exact hNodup _ na hna
    · exact hNodup p np hg
  · intro p np c hp hcp
    obtain ⟨mp, hgp, hmp⟩ := hmem p np c hp hcp
    obtain ⟨nc, hgc, hpc⟩ := hBack p mp c hgp hmp
    by_cases hca : c = a
    · subst hca
      rw [hna] at hgc
      injection hgc with hgc
      refine ⟨na', Store.get_set_self _ hasz, ?_⟩
      rw [hprev, hgc, hpc]
    · refine ⟨nc, ?_, hpc⟩
      rw [Store.get_set_ne _ (fun hax => hca hax.symm)]
      exact hgc

theorem downgrade_inner_shape [Inhabited T] (n : Node T) :
    ((Node.downgrade_inner n).1).children = n.children ∧
    ((Node.downgrade_inner n).1).prev = n.prev := by
  cases n with
  | Leaf pr v => exact ⟨rfl, rfl⟩
  | Parent v pr next =>
      cases next with
      | cons x xs =>
          simp [Node.downgrade_inner, Node.children, Node.prev]
      | nil =>
          cases pr with
          | some q => simp [Node.downgrade_inner, Node.children, Node.prev]
          | none => simp [Node.downgrade_inner, Node.children, Node.prev]

theorem inv_downgrade [Inhabited T] {s : Store T} {a : Addr}
    {r : Except NodeError Unit} {s' : Store T} (hI : Inv s)
    (h : Node.downgrade s a = some (r, s')) : Inv s' := by
  cases hga : s.get a with
  | none => simp [Node.downgrade, hga] at h
  | some na =>
      simp only [Node.downgrade, hga, Option.some.injEq,
        Prod.mk.injEq] at h
      obtain ⟨hr, hs'⟩ := h
      rw [← hs']
      obtain ⟨hch, hprev⟩ := downgrade_inner_shape (T := T) na
      exact inv_set_same_shape s a hga hch hprev hI

end Canopy

namespace Canopy

variable {T : Type}

theorem inv_insert {s : Store T} {p : Addr} {v : T}
    {r : Except NodeError Addr} {s' : Store T} (hI : Inv s)
    (h : Node.insert s p v = some (r, s')) : Inv s' := by
  obtain ⟨hWF, hUniq, hNodup, hBack⟩ := hI
  cases hgp : s.get p with
  | none => simp [Node.insert, Node.inner_insert, hgp] at h
  | some n =>
      obtain ⟨s1, n1, heq, hsize, hget, hval, hprev, hch, hnew, hframe⟩ :=
        insert_get s p v n hgp
      rw [heq] at h
      simp only [Option.some.injEq, Prod.mk.injEq] at h
      obtain ⟨-, hs1⟩ := h
      subst hs1
      have hpsz : p < s.size := Store.lt_size_of_get hgp
      have hchar : ∀ x nx, s1.get x = some nx →
          (x = p ∧ nx = n1) ∨ (x = s.size ∧ nx = Node.Leaf (some p) v) ∨
          (x ≠ p ∧ x < s.size ∧ s.get x = some nx) := by
        intro x nx hx
        by_cases hxp : x = p
        · subst hxp
          rw [hget] at hx
          injection hx with hx
          exact Or.inl ⟨rfl, hx.symm⟩
        · by_cases hxs : x = s.size
          · subst hxs
            rw [hnew] at hx
            injection hx with hx
            exact Or.inr (Or.inl ⟨rfl, hx.symm⟩)
          · have hxlt : x < s.size := by
              have hx1 := Store.lt_size_of_get hx
              rw [hsize] at hx1
              rcases Nat.lt_succ_iff_lt_or_eq.mp hx1 with h1 | h1
              · exact h1
              · exact absurd h1 hxs
            refine Or.inr (Or.inr ⟨hxp, hxlt, ?_⟩)
            rw [← hframe x hxp hxlt]
            exact hx
      have hmem : ∀ x nx c, s1.get x = some nx → c ∈ nx.children →
          (x = p ∧ c = s.size) ∨
          (∃ mx, s.get x = some mx ∧ c ∈ mx.children) := by
        intro x nx c hx hc
        rcases hchar x nx hx with ⟨rfl, rfl⟩ | ⟨rfl, rfl⟩ | ⟨hxp, hxlt, hg⟩
        · rw [hch] at hc
          rcases List.mem_append.mp hc with h1 | h1
          · exact Or.inr ⟨n, hgp, h1⟩
          · simp only [List.mem_singleton] at h1
            exact Or.inl ⟨rfl, h1⟩
        · simp [Node.children] at hc
        · exact Or.inr ⟨nx, hg, hc⟩
      refine ⟨?_, ?_, ?_, ?_⟩
      · intro x nx hx b hb
        rw [hsize]
        rcases hmem x nx b hx hb with ⟨rfl, rfl⟩ | ⟨mx, hg, hbm⟩
        · exact Nat.lt_succ_self _
        · exact Nat.lt_succ_of_lt (hWF x mx hg b hbm)
      · intro x nx y ny c hx hy hcx hcy
        rcases hmem x nx c hx hcx with ⟨rfl, rfl⟩ | ⟨mx, hgx, hmx⟩
        · rcases hmem y ny s.size hy hcy with ⟨rfl, -⟩ | ⟨my, hgy, hmy⟩
          · rfl
          · exact absurd (hWF y my hgy s.size hmy) (lt_irrefl _)
        · rcases hmem y ny c hy hcy with ⟨rfl, rfl⟩ | ⟨my, hgy, hmy⟩
          · exact absurd (hWF x mx hgx s.size hmx) (lt_irrefl _)
          · exact hUniq x mx y my c hgx hgy hmx hmy
      · intro x nx hx
        rcases hchar x nx hx with ⟨rfl, rfl⟩ | ⟨rfl, rfl⟩ | ⟨hxp, hxlt, hg⟩
        · rw [hch]
          have hnd := hNodup _ n hgp
          have hnm : s.size ∉ n.children := fun hm =>
            absurd (hWF _ n hgp _ hm) (lt_irrefl _)
          simp [List.nodup_append, hnd, hnm]
        · simp [Node.children]
        · exact hNodup x nx hg
      · intro x nx c hx hcx
        rcases hmem x nx c hx hcx with ⟨rfl, rfl⟩ | ⟨mx, hgx, hmx⟩
        · exact ⟨Node.Leaf (some x) v, hnew, rfl⟩
        · obtain ⟨nc, hgc, hpc⟩ := hBack x mx c hgx hmx
          have hcs : c < s.size := hWF x mx hgx c hmx
          by_cases hcp : c = p
          · subst hcp
            rw [hgp] at hgc
            injection hgc with hgc
            refine ⟨n1, hget, ?_⟩
            rw [hprev, hgc]
            exact hpc
          · refine ⟨nc, ?_, hpc⟩
            rw [hframe c hcp hcs]
            exact hgc

theorem inv_pop [Inhabited T] {s : Store T} {p c : Addr}
    {r : Except NodeError Bool} {s' : Store T} (hI : Inv s)
    (h : Node.pop s p c = some (r, s')) : Inv s' := by
  rcases pop_cases h with
    ⟨pr, v, hp, -, rfl⟩ | ⟨v, pr, next, hp, -, -, rfl⟩ |
    ⟨v, pr, next, i, cn, pn, hp, hf, hcp, hc, -, hs', hch, hprev, -, -, -⟩
  · exact hI
  · exact hI
  · obtain ⟨hWF, hUniq, hNodup, hBack⟩ := hI
    subst hs'
    have hpsz : p < s.size := Store.lt_size_of_get hp
    have hcsz : c < s.size := Store.lt_size_of_get hc
    obtain ⟨hilen, hgi, -⟩ := findIdx_beq_some_facts hf
    have hcmem : c ∈ next := List.getElem?_mem hgi
    have hndnext : next.Nodup := by
      have hnd := hNodup p _ hp
      simpa [Node.children] using hnd
    have hcer : c ∉ next.eraseIdx i := not_mem_eraseIdx_of_nodup hndnext hgi
    have hgetp : ((s.set c cn.clear_prev).set p pn).get p = some pn :=
      Store.get_set_self _ (by rwa [Store.size_set])
    have hgetc : ((s.set c cn.clear_prev).set p pn).get c =
        some cn.clear_prev := by
      rw [Store.get_set_ne _ (Ne.symm hcp), Store.get_set_self _ hcsz]
    have hchar : ∀ x nx,
        ((s.set c cn.clear_prev).set p pn).get x = some nx →
        (x = p ∧ nx = pn) ∨ (x = c ∧ nx = cn.clear_prev) ∨
        (x ≠ p ∧ x ≠ c ∧ s.get x = some nx) := by
      intro x nx hx
      by_cases hxp : x = p
      · subst hxp
        rw [hgetp] at hx
        injection hx with hx
        exact Or.inl ⟨rfl, hx.symm⟩
      · by_cases hxc : x = c
        · subst hxc
          rw [hgetc] at hx
          injection hx with hx
          exact Or.inr (Or.inl ⟨rfl, hx.symm⟩)
        · rw [Store.get_set_ne _ (fun he => hxp he.symm),
            Store.get_set_ne _ (fun he => hxc he.symm)] at hx
          exact Or.inr (Or.inr ⟨hxp, hxc, hx⟩)
    have hmem : ∀ x nx d,
        ((s.set c cn.clear_prev).set p pn).get x = some nx →
        d ∈ nx.children → ∃ mx, s.get x = some mx ∧ d ∈ mx.children := by
      intro x nx d hx hd
      rcases hchar x nx hx with ⟨rfl, rfl⟩ | ⟨rfl, rfl⟩ | ⟨-, -, hg⟩
      · rw [hch] at hd
        refine ⟨Node.Parent v pr next, hp, ?_⟩
        simpa [Node.children] using mem_of_mem_eraseIdx hd
      · rw [clear_prev_children] at hd
        exact ⟨cn, hc, hd⟩
      · exact ⟨nx, hg, hd⟩
    have hnotc : ∀ x nx,
        ((s.set c cn.clear_prev).set p pn).get x = some nx →
        c ∉ nx.children := by
      intro x nx hx hcmem'
      obtain ⟨mx, hgx, hmx⟩ := hmem x nx c hx hcmem'
      have hxp : x = p :=
        hUniq x mx p _ c hgx hp hmx (by simpa [Node.children] using hcmem)
      subst hxp
      rw [hgetp] at hx
      injection hx with hx
      rw [← hx, hch] at hcmem'
      exact hcer hcmem'
    refine ⟨?_, ?_, ?_, ?_⟩
    · intro x nx hx b hb
      obtain ⟨mx, hgx, hbm⟩ := hmem x nx b hx hb
      rw [Store.size_set, Store.size_set]
      exact hWF x mx hgx b hbm
    · intro x nx y ny d hx hy hdx hdy
      obtain ⟨mx, hgx, hmx⟩ := hmem x nx d hx hdx
      obtain ⟨my, hgy, hmy⟩ := hmem y ny d hy hdy
      exact hUniq x mx y my d hgx hgy hmx hmy
    · intro x nx hx
      rcases hchar x nx hx with ⟨rfl, rfl⟩ | ⟨rfl, rfl⟩ | ⟨-, -, hg⟩
      · rw [hch]
        exact List.Nodup.eraseIdx i hndnext
      · rw [clear_prev_children]
        exact hNodup _ cn hc
      · exact hNodup x nx hg
    · intro x nx d hx hdx
      have hdc : d ≠ c := fun he => hnotc x nx hx (he ▸ hdx)
      obtain ⟨mx, hgx, hmx⟩ := hmem x nx d hx hdx
      obtain ⟨nc', hgc', hpc'⟩ := hBack x mx d hgx hmx
      by_cases hdp : d = p
      · subst hdp
        rw [hp] at hgc'
        injection hgc' with hgc'
        refine ⟨pn, hgetp, ?_⟩
        rw [hprev]
        rw [← hgc'] at hpc'
        simpa [Node.prev] using hpc'
      · refine ⟨nc', ?_, hpc'⟩
        rw [Store.get_set_ne _ (fun he => hdp he.symm),
          Store.get_set_ne _ (fun he => hdc he.symm)]
        exact hgc'

/-- C8 (amended): at every state reachable by non-aborting sequences of
the constructors, `insert`, `pop` and `downgrade` (that is, excluding
direct `upgrade` calls that attach an existing node — the
counterexample shows `upgrade` neither sets the attached child's
back-reference nor detaches it from a previous parent), every node
appears in at most one parent's children sequence, at most once there,
and a member child's back-reference points exactly at the parent whose
children sequence contains it: `insert` sets it on attach and `pop`
clears it on detach. -/
theorem claim8_membership_invariant [Inhabited T] (s : Store T)
    (h : Reach s) : Inv s := by
  induction h with
  | init => exact inv_empty
  | alloc_parent s v hr ih => exact inv_alloc s _ rfl ih
  | alloc_leaf s v pr hr ih => exact inv_alloc s _ rfl ih
  | insert s p v r s' hr hop ih => exact inv_insert ih hop
  | pop s p c r s' hr hop ih => exact inv_pop ih hop
  | downgrade s a r s' hr hop ih => exact inv_downgrade ih hop

/-- Witness for C8 at a concrete reachable heap: a fresh root with one
inserted child satisfies the membership/back-reference invariant. -/
theorem claim8_witness :
    Inv (⟨[Node.Parent 1 none [1], Node.Leaf (some 0) 2]⟩ : Store Nat) :=
  claim8_membership_invariant _
    (Reach.insert _ 0 2 (Except.ok 1) _
      (Reach.alloc_parent ⟨[]⟩ 1 Reach.init) (by rfl))

end Canopy
